import Mathlib

/-!
Shallow embedding of the repository's single source file,
"Jason assets/generate_spritesheet.py", and proofs about it.

The script reads a directory of images, packs them with a greedy shelf
(row-based) packer, composites them onto one sheet, and emits a
TexturePacker-style JSON atlas.  Pixel contents and file I/O are irrelevant
to the layout logic, so an image is modelled by its dimensions alone, the
directory listing by a list of file names, and decoding by a function
returning an optional image.
-/

/-- An in-memory decoded image; only its pixel dimensions `img.size = (w, h)`
are relevant to the layout logic of the script. -/
structure Img where
  w : Nat
  h : Nat
  deriving DecidableEq

/-- Loop body of the source's `next_power_of_two` (`p = 1; while p < n: p <<= 1`),
modelled with an explicit fuel argument so that the definition is structural.
The caller passes fuel `n`, which never runs out because doubling from 1
reaches `n` within `n` iterations (established by the lemmas below). -/
def npotLoop (fuel n p : Nat) : Nat :=
  match fuel with
  | 0 => p
  | fuel' + 1 => if p < n then npotLoop fuel' n (p * 2) else p

/-- The source's `next_power_of_two(n)`: smallest power of two reached by
doubling from 1 that is not less than `n`. -/
def next_power_of_two (n : Nat) : Nat :=
  npotLoop n n 1

/-- Python dict assignment `d[k] = v` on an association-list model of a dict:
if the key is present its value is updated in place (insertion order kept),
otherwise the binding is appended at the end. -/
def dictInsert {α : Type} (k : String) (v : α) : List (String × α) → List (String × α)
  | [] => [(k, v)]
  | (k', v') :: rest => if k' = k then (k, v) :: rest else (k', v') :: dictInsert k v rest

/-- The mutable state of the loop inside `pack_images`: cursor `x`, `y`,
the current row height, the positions dict built so far, and the running
maximum row extent `max_row_w`. -/
structure PackState where
  x : Nat
  y : Nat
  row_height : Nat
  positions : List (String × Nat × Nat)
  max_row_w : Nat

/-- One iteration of the `for fname, img in images` loop of `pack_images`.
When `x + w + padding > max_width` the cursor wraps to a new row
(`y += row_height + padding; x = padding; row_height = 0`); then the
position is recorded, `x` advances by `w + padding`, `max_row_w` is raised
to `x` if exceeded, and `row_height` to `h` if exceeded.  The two branches
of the wrap test are written out with the subsequent updates applied. -/
def packStep (max_width padding : Nat) (s : PackState) (fi : String × Img) : PackState :=
  if s.x + fi.2.w + padding > max_width then
    { x := padding + fi.2.w + padding
      y := s.y + s.row_height + padding
      row_height := fi.2.h
      positions := dictInsert fi.1 (padding, s.y + s.row_height + padding) s.positions
      max_row_w := max s.max_row_w (padding + fi.2.w + padding) }
  else
    { x := s.x + fi.2.w + padding
      y := s.y
      row_height := max s.row_height fi.2.h
      positions := dictInsert fi.1 (s.x, s.y) s.positions
      max_row_w := max s.max_row_w (s.x + fi.2.w + padding) }

/-- The source's `max((img.size[0] for _, img in images), default=0)`:
largest image width in the list, `0` for an empty list. -/
def maxImgWidth (images : List (String × Img)) : Nat :=
  (images.map (fun fi => fi.2.w)).foldr max 0

/-- The source's `pack_images(images, max_width, padding)`: runs the shelf
loop from cursor `(padding, padding)` and returns
`(positions, total_width, total_height)` with
`total_width = max(max_row_w, max_image_width + 2 * padding)` and
`total_height = y + row_height + padding`. -/
def pack_images (images : List (String × Img)) (max_width padding : Nat) :
    List (String × Nat × Nat) × Nat × Nat :=
  let s := images.foldl (packStep max_width padding)
    { x := padding, y := padding, row_height := 0, positions := [], max_row_w := 0 }
  (s.positions, max s.max_row_w (maxImgWidth images + 2 * padding),
    s.y + s.row_height + padding)

/-- Dimension computation of the source's `create_sheet`: when `pot` is set
both dimensions are rounded with `next_power_of_two`, otherwise they are
returned unchanged.  The pasting of pixels and the saving of the file are
image/file I/O and are not modelled; the pair returned here is exactly the
`(sheet_w, sheet_h)` that `create_sheet` returns. -/
def create_sheet_dims (sheet_w sheet_h : Nat) (pot : Bool) : Nat × Nat :=
  if pot then (next_power_of_two sheet_w, next_power_of_two sheet_h)
  else (sheet_w, sheet_h)

/-- A placement rectangle of the packer together with the sprite's name and
dimensions: the sprite named `name` of size `w` by `h` is placed with its
top-left corner at `(x, y)`. -/
structure PlacedRect where
  name : String
  x : Nat
  y : Nat
  w : Nat
  h : Nat
  deriving DecidableEq

/-- The sequence of placement rectangles produced by the `pack_images` loop,
in processing order, starting from cursor `(x, y)` with current row height
`rh`.  This is the same recursion as folding `packStep`, carrying the placed
rectangles instead of the positions dict; the lemma `packRun_spec` relates
the two. -/
def packRects (max_width padding : Nat) : Nat → Nat → Nat → List (String × Img) → List PlacedRect
  | _, _, _, [] => []
  | x, y, rh, fi :: rest =>
    if x + fi.2.w + padding > max_width then
      { name := fi.1, x := padding, y := y + rh + padding, w := fi.2.w, h := fi.2.h } ::
        packRects max_width padding (padding + fi.2.w + padding) (y + rh + padding) fi.2.h rest
    else
      { name := fi.1, x := x, y := y, w := fi.2.w, h := fi.2.h } ::
        packRects max_width padding (x + fi.2.w + padding) y (max rh fi.2.h) rest

/-- Root part of `os.path.splitext(fname)` for a file name (no path
separator, as returned by `os.listdir`): the name is split at its last dot
unless every character before that dot is itself a dot (so a leading-dot
name such as ".png" keeps its dot and is returned whole). -/
def splitext_root (s : String) : String :=
  match (s.data.enum.filter (fun p => p.2 = '.')).getLast? with
  | none => s
  | some d => if (s.data.take d.1).all (fun c => c = '.') then s else { data := s.data.take d.1 }

/-- One per-sprite record of the atlas JSON, as built by `build_json`. -/
structure FrameRec where
  frame : Nat × Nat × Nat × Nat
  rotated : Bool
  trimmed : Bool
  spriteSourceSize : Nat × Nat × Nat × Nat
  sourceSize : Nat × Nat
  pivot : ℚ × ℚ
  deriving DecidableEq

/-- The `meta` block of the atlas JSON. -/
structure Meta where
  app : String
  image : String
  size : Nat × Nat
  scale : String
  deriving DecidableEq

/-- The whole atlas JSON document: the `frames` dict (association list in
insertion order, keyed by the file name without extension) and the `meta`
block. -/
structure Atlas where
  frames : List (String × FrameRec)
  meta : Meta
  deriving DecidableEq

/-- The per-sprite record assembled in the loop body of `build_json` for a
sprite placed at `(x, y)` with size `w` by `h`. -/
def mkFrame (x y w h : Nat) : FrameRec :=
  { frame := (x, y, w, h)
    rotated := false
    trimmed := false
    spriteSourceSize := (0, 0, w, h)
    sourceSize := (w, h)
    pivot := (1/2, 1/2) }

/-- The `frames` dict built by the loop of `build_json`.  The lookup
`positions[fname]` of the Python dict is fallible in general (a `KeyError`
aborts the script), hence the `Option`; the lemmas below show it always
succeeds on the positions dict that `pack_images` returns for the same
image list. -/
def buildFrames (positions : List (String × Nat × Nat)) (images : List (String × Img)) :
    Option (List (String × FrameRec)) :=
  images.foldlM
    (fun frames fi =>
      (List.lookup fi.1 positions).map
        (fun pos => dictInsert (splitext_root fi.1) (mkFrame pos.1 pos.2 fi.2.w fi.2.h) frames))
    []

/-- The source's `build_json(images, positions, sheet_w, sheet_h,
image_filename)`: the `frames` dict plus the `meta` block. -/
def build_json (images : List (String × Img)) (positions : List (String × Nat × Nat))
    (sheet_w sheet_h : Nat) (image_filename : String) : Option Atlas :=
  (buildFrames positions images).map
    (fun fr =>
      { frames := fr
        meta :=
          { app := "generate_spritesheet.py"
            image := image_filename
            size := (sheet_w, sheet_h)
            scale := "1" } })

/-- The extension filter of `collect_images`:
`f.lower().endswith(('.png', '.jpg', '.jpeg', '.webp'))`. -/
def hasImageExt (f : String) : Bool :=
  f.toLower.endsWith ".png" || f.toLower.endsWith ".jpg" ||
    f.toLower.endsWith ".jpeg" || f.toLower.endsWith ".webp"

/-- Comparison used to model Python's `files.sort()` on file names. -/
def strLeB (a b : String) : Bool :=
  decide (a ≤ b)

/-- The source's `collect_images(input_dir)`.  The directory listing
(`os.listdir`) is passed in as `listing`, and decoding
(`Image.open(path).convert("RGBA")`) as the function `decode`, which yields
`none` exactly when opening raises and the file is skipped (`continue`).
The allow-listed file names are sorted and each successfully decoded one is
kept, in order. -/
def collect_images (listing : List String) (decode : String → Option Img) :
    List (String × Img) :=
  ((listing.filter hasImageExt).mergeSort strLeB).filterMap
    (fun f => (decode f).map (fun img => (f, img)))

/-- The max-width adjustment in `main`:
`max_width = max(args.width, max_img_w + 2*args.padding)`. -/
def effective_max_width (images : List (String × Img)) (reqWidth padding : Nat) : Nat :=
  max reqWidth (maxImgWidth images + 2 * padding)

/-- The pure pipeline of `main` after collection: widen the max width,
pack, round the dimensions (`create_sheet`), and build the atlas JSON.
Returns the atlas together with the final sheet dimensions. -/
def run_pipeline (images : List (String × Img)) (reqWidth padding : Nat) (pot : Bool)
    (outName : String) : Option (Atlas × Nat × Nat) :=
  let max_width := effective_max_width images reqWidth padding
  let packed := pack_images images max_width padding
  let dims := create_sheet_dims packed.2.1 packed.2.2 pot
  (build_json images packed.1 dims.1 dims.2 outName).map (fun a => (a, dims.1, dims.2))

/-- The source's `main`, with its environment made explicit: whether the
input directory exists (`os.path.isdir`), the directory listing, and the
decoder.  `Except.error 1` is `sys.exit(1)` (also the interpreter's exit
status for the unreachable `KeyError` branch; the lemmas below show that
branch never fires); on success the written atlas JSON and the final sheet
dimensions are returned. -/
def main_run (dirExists : Bool) (listing : List String) (decode : String → Option Img)
    (reqWidth padding : Nat) (pot : Bool) (outName : String) :
    Except Nat (Atlas × Nat × Nat) :=
  if dirExists = false then Except.error 1
  else
    let images := collect_images listing decode
    if images = [] then Except.error 1
    else
      match run_pipeline images reqWidth padding pot outName with
      | some r => Except.ok r
      | none => Except.error 1

/-! ### Properties of `next_power_of_two` -/

/-- Characterization of the doubling loop: started at a power of two `p`
with enough fuel, it returns a power of two that is at least `n` and at
most every power of two that is at least both `p` and `n`. -/
theorem npotLoop_spec : ∀ (fuel n p k : Nat), p = 2 ^ k → n ≤ p * 2 ^ fuel →
    ∃ j, npotLoop fuel n p = 2 ^ j ∧ n ≤ 2 ^ j ∧
      ∀ m, p ≤ 2 ^ m → n ≤ 2 ^ m → 2 ^ j ≤ 2 ^ m := by
  intro fuel
  induction fuel with
  | zero =>
    intro n p k hp hf
    simp only [pow_zero, mul_one] at hf
    exact ⟨k, by simp [npotLoop, hp], hp ▸ hf, fun m hpm _ => hp ▸ hpm⟩
  | succ f ih =>
    intro n p k hp hf
    by_cases h : p < n
    · have hf' : n ≤ p * 2 * 2 ^ f := by
        have : p * 2 * 2 ^ f = p * 2 ^ (f + 1) := by ring
        omega
      obtain ⟨j, h1, h2, h3⟩ := ih n (p * 2) (k + 1) (by rw [hp, pow_succ]) hf'
      refine ⟨j, by simpa [npotLoop, h] using h1, h2, fun m hpm hnm => h3 m ?_ hnm⟩
      have hkm : k < m := by
        have hlt : (2 : Nat) ^ k < 2 ^ m := lt_of_lt_of_le (hp ▸ h) hnm
        exact (Nat.pow_lt_pow_iff_right (by norm_num)).1 hlt
      calc p * 2 = 2 ^ (k + 1) := by rw [hp, pow_succ]
        _ ≤ 2 ^ m := Nat.pow_le_pow_right (by norm_num) hkm
    · refine ⟨k, ?_, hp ▸ Nat.le_of_not_lt h, fun m hpm _ => hp ▸ hpm⟩
      show (if p < n then npotLoop f n (p * 2) else p) = 2 ^ k
      rw [if_neg h]
      exact hp

/-- The source's `next_power_of_two(n)` is a power of two, is at least `n`,
and is at most every power of two that is at least `n`. -/
theorem next_power_of_two_spec (n : Nat) :
    ∃ j, next_power_of_two n = 2 ^ j ∧ n ≤ 2 ^ j ∧ ∀ m, n ≤ 2 ^ m → 2 ^ j ≤ 2 ^ m := by
  obtain ⟨j, h1, h2, h3⟩ :=
    npotLoop_spec n n 1 0 (by norm_num) (by simpa using Nat.le_of_lt (Nat.lt_two_pow n))
  exact ⟨j, h1, h2, fun m hm => h3 m (Nat.one_le_two_pow) hm⟩

/-- Power-of-two rounding never shrinks a dimension. -/
theorem le_next_power_of_two (n : Nat) : n ≤ next_power_of_two n := by
  obtain ⟨j, h1, h2, _⟩ := next_power_of_two_spec n
  omega

/-- A dimension that is already a power of two is left unchanged. -/
theorem next_power_of_two_pow (k : Nat) : next_power_of_two (2 ^ k) = 2 ^ k := by
  obtain ⟨j, h1, h2, h3⟩ := next_power_of_two_spec (2 ^ k)
  have := h3 k le_rfl
  omega

/-! ### The packer loop and its placed rectangles -/

/-- Folding the loop body over the remaining images from a given state. -/
def packRun (max_width padding : Nat) (s : PackState) (l : List (String × Img)) : PackState :=
  l.foldl (packStep max_width padding) s

/-- Correspondence and invariants of the packer loop: the positions dict of
the final state is the fold of `dictInsert` over the placed rectangles; the
row extent `max_row_w` only grows; the bottom `y + row_height` only grows;
and every placed rectangle lies within the final row extent (padding
included) and above the final bottom. -/
theorem packRun_spec (mw p : Nat) :
    ∀ (l : List (String × Img)) (s : PackState),
      (packRun mw p s l).positions =
        (packRects mw p s.x s.y s.row_height l).foldl
          (fun acc r => dictInsert r.name (r.x, r.y) acc) s.positions ∧
      s.max_row_w ≤ (packRun mw p s l).max_row_w ∧
      s.y + s.row_height ≤ (packRun mw p s l).y + (packRun mw p s l).row_height ∧
      ∀ r ∈ packRects mw p s.x s.y s.row_height l,
        r.x + r.w + p ≤ (packRun mw p s l).max_row_w ∧
        r.y + r.h ≤ (packRun mw p s l).y + (packRun mw p s l).row_height := by
  intro l
  induction l with
  | nil => intro s; simp [packRun, packRects]
  | cons fi rest ih =>
    intro s
    have hrun : packRun mw p s (fi :: rest) = packRun mw p (packStep mw p s fi) rest := rfl
    obtain ⟨ih1, ih2, ih3, ih4⟩ := ih (packStep mw p s fi)
    by_cases hw : s.x + fi.2.w + p > mw
    · have hstep : packStep mw p s fi =
          { x := p + fi.2.w + p, y := s.y + s.row_height + p, row_height := fi.2.h
            positions := dictInsert fi.1 (p, s.y + s.row_height + p) s.positions
            max_row_w := max s.max_row_w (p + fi.2.w + p) } := by
        simp [packStep, hw]
      have hrects : packRects mw p s.x s.y s.row_height (fi :: rest) =
          { name := fi.1, x := p, y := s.y + s.row_height + p, w := fi.2.w, h := fi.2.h } ::
            packRects mw p (p + fi.2.w + p) (s.y + s.row_height + p) fi.2.h rest := by
        simp [packRects, hw]
      rw [hstep] at ih1 ih2 ih3 ih4
      simp only at ih1 ih2 ih3 ih4
      refine ⟨?_, ?_, ?_, ?_⟩
      · rw [hrun, hstep, hrects, List.foldl_cons]
        exact ih1
      · rw [hrun, hstep]
        exact le_trans (Nat.le_max_left _ _) ih2
      · rw [hrun, hstep]
        omega
      · rw [hrects]
        intro r hr
        rcases List.mem_cons.1 hr with h | h
        · subst h
          rw [hrun, hstep]
          constructor
          · exact le_trans (Nat.le_max_right _ _) ih2
          · simpa using ih3
        · rw [hrun, hstep]
          exact ih4 r h
    · have hstep : packStep mw p s fi =
          { x := s.x + fi.2.w + p, y := s.y, row_height := max s.row_height fi.2.h
            positions := dictInsert fi.1 (s.x, s.y) s.positions
            max_row_w := max s.max_row_w (s.x + fi.2.w + p) } := by
        simp [packStep, hw]
      have hrects : packRects mw p s.x s.y s.row_height (fi :: rest) =
          { name := fi.1, x := s.x, y := s.y, w := fi.2.w, h := fi.2.h } ::
            packRects mw p (s.x + fi.2.w + p) s.y (max s.row_height fi.2.h) rest := by
        simp [packRects, hw]
      rw [hstep] at ih1 ih2 ih3 ih4
      simp only at ih1 ih2 ih3 ih4
      refine ⟨?_, ?_, ?_, ?_⟩
      · rw [hrun, hstep, hrects, List.foldl_cons]
        exact ih1
      · rw [hrun, hstep]
        exact le_trans (Nat.le_max_left _ _) ih2
      · rw [hrun, hstep]
        have : s.y + s.row_height ≤ s.y + max s.row_height fi.2.h := by
          have := Nat.le_max_left s.row_height fi.2.h
          omega
        omega
      · rw [hrects]
        intro r hr
        rcases List.mem_cons.1 hr with h | h
        · subst h
          rw [hrun, hstep]
          constructor
          · exact le_trans (Nat.le_max_right _ _) ih2
          · have : s.y + fi.2.h ≤ s.y + max s.row_height fi.2.h := by
              have := Nat.le_max_right s.row_height fi.2.h
              omega
            simp only
            omega
        · rw [hrun, hstep]
          exact ih4 r h

/-- The placed rectangles carry exactly the input sprites' names, in order. -/
theorem packRects_names (mw p : Nat) :
    ∀ (l : List (String × Img)) (x y rh : Nat),
      (packRects mw p x y rh l).map PlacedRect.name = l.map Prod.fst := by
  intro l
  induction l with
  | nil => intro x y rh; simp [packRects]
  | cons fi rest ih =>
    intro x y rh
    by_cases hw : x + fi.2.w + p > mw
    · simp [packRects, hw, ih]
    · simp [packRects, hw, ih]

/-- The placed rectangles carry exactly the input sprites' dimensions, in
order. -/
theorem packRects_dims (mw p : Nat) :
    ∀ (l : List (String × Img)) (x y rh : Nat),
      (packRects mw p x y rh l).map (fun r => (r.w, r.h)) =
        l.map (fun fi => (fi.2.w, fi.2.h)) := by
  intro l
  induction l with
  | nil => intro x y rh; simp [packRects]
  | cons fi rest ih =>
    intro x y rh
    by_cases hw : x + fi.2.w + p > mw
    · simp [packRects, hw, ih]
    · simp [packRects, hw, ih]

/-- Every rectangle placed from cursor `(x, y)` with current row height `rh`
either stays on the current row, to the right of the cursor, or starts at or
below the expanded bottom of the current row. -/
theorem packRects_future (mw p : Nat) :
    ∀ (l : List (String × Img)) (x y rh : Nat),
      ∀ r ∈ packRects mw p x y rh l, (r.y = y ∧ x ≤ r.x) ∨ y + rh + p ≤ r.y := by
  intro l
  induction l with
  | nil => intro x y rh r hr; simp [packRects] at hr
  | cons fi rest ih =>
    intro x y rh r hr
    by_cases hw : x + fi.2.w + p > mw
    · rw [packRects, if_pos hw] at hr
      rcases List.mem_cons.1 hr with h | h
      · subst h
        right
        simp
      · rcases ih (p + fi.2.w + p) (y + rh + p) fi.2.h r h with ⟨h1, _⟩ | h1
        · right
          omega
        · right
          omega
    · rw [packRects, if_neg hw] at hr
      rcases List.mem_cons.1 hr with h | h
      · subst h
        left
        simp
      · rcases ih (x + fi.2.w + p) y (max rh fi.2.h) r h with ⟨h1, h2⟩ | h1
        · left
          exact ⟨h1, by omega⟩
        · right
          have := Nat.le_max_left rh fi.2.h
          omega

/-- Two placement rectangles are separated when one lies entirely to the
left of the other, or entirely above it, with at least `p` pixels in
between: equivalently, the two rectangles each grown by `p` to the right
and bottom occupy disjoint areas. -/
def rectsSeparated (p : Nat) (r1 r2 : PlacedRect) : Prop :=
  r1.x + r1.w + p ≤ r2.x ∨ r2.x + r2.w + p ≤ r1.x ∨
    r1.y + r1.h + p ≤ r2.y ∨ r2.y + r2.h + p ≤ r1.y

/-- The rectangles placed by the packer loop are pairwise separated. -/
theorem packRects_pairwise (mw p : Nat) :
    ∀ (l : List (String × Img)) (x y rh : Nat),
      (packRects mw p x y rh l).Pairwise (rectsSeparated p) := by
  intro l
  induction l with
  | nil => intro x y rh; simp [packRects]
  | cons fi rest ih =>
    intro x y rh
    by_cases hw : x + fi.2.w + p > mw
    · rw [packRects, if_pos hw]
      refine List.Pairwise.cons ?_ (ih _ _ _)
      intro r hr
      rcases packRects_future mw p rest (p + fi.2.w + p) (y + rh + p) fi.2.h r hr with
        ⟨h1, h2⟩ | h1
      · left
        simp only
        omega
      · right; right; left
        simp only
        omega
    · rw [packRects, if_neg hw]
      refine List.Pairwise.cons ?_ (ih _ _ _)
      intro r hr
      rcases packRects_future mw p rest (x + fi.2.w + p) y (max rh fi.2.h) r hr with
        ⟨h1, h2⟩ | h1
      · left
        simp only
        omega
      · right; right; left
        simp only
        have := Nat.le_max_right rh fi.2.h
        omega

/-- A point of the plane lies in the rectangle `r` grown by `p` pixels to
the right and bottom (the sprite's pixels together with its padding
margin). -/
def inExpandedRect (p : Nat) (r : PlacedRect) (q : Nat × Nat) : Prop :=
  r.x ≤ q.1 ∧ q.1 < r.x + r.w + p ∧ r.y ≤ q.2 ∧ q.2 < r.y + r.h + p

/-- Separated rectangles share no point, padding margins included. -/
theorem rectsSeparated.no_common_point {p : Nat} {r1 r2 : PlacedRect}
    (h : rectsSeparated p r1 r2) (q : Nat × Nat) :
    ¬(inExpandedRect p r1 q ∧ inExpandedRect p r2 q) := by
  rintro ⟨⟨a1, a2, a3, a4⟩, ⟨b1, b2, b3, b4⟩⟩
  rcases h with h | h | h | h <;> omega

/-! ### The positions dict -/

/-- Inserting a fresh key into a dict appends the binding at the end. -/
theorem dictInsert_eq_append {α : Type} (k : String) (v : α) :
    ∀ (l : List (String × α)), k ∉ l.map Prod.fst → dictInsert k v l = l ++ [(k, v)] := by
  intro l
  induction l with
  | nil => intro _; rfl
  | cons kv rest ih =>
    intro h
    simp only [List.map_cons, List.mem_cons] at h
    push_neg at h
    rw [dictInsert, if_neg (fun he => h.1 he.symm), ih h.2]
    rfl

/-- Membership in the keys of a dict after an insertion. -/
theorem mem_keys_dictInsert {α : Type} (a k : String) (v : α) (l : List (String × α)) :
    a ∈ (dictInsert k v l).map Prod.fst ↔ a = k ∨ a ∈ l.map Prod.fst := by
  induction l with
  | nil => simp [dictInsert]
  | cons kv rest ih =>
    by_cases hk : kv.1 = k
    · rw [show (kv :: rest : List (String × α)) = (kv.1, kv.2) :: rest from rfl,
        dictInsert, if_pos hk]
      simp [hk]
    · rw [show (kv :: rest : List (String × α)) = (kv.1, kv.2) :: rest from rfl,
        dictInsert, if_neg hk]
      simp only [List.map_cons, List.mem_cons] at ih ⊢
      tauto

/-- Folding fresh, pairwise-distinct insertions over a dict appends all the
bindings in order. -/
theorem foldl_dictInsert_eq_append {α : Type} :
    ∀ (R : List (String × α)) (acc : List (String × α)),
      (∀ k ∈ R.map Prod.fst, k ∉ acc.map Prod.fst) → (R.map Prod.fst).Nodup →
      R.foldl (fun a kv => dictInsert kv.1 kv.2 a) acc = acc ++ R := by
  intro R
  induction R with
  | nil => intro acc _ _; simp
  | cons kv rest ih =>
    intro acc hfresh hnd
    simp only [List.map_cons, List.nodup_cons] at hnd
    rw [List.foldl_cons, dictInsert_eq_append kv.1 kv.2 acc
      (hfresh kv.1 (by simp)), ih]
    · simp
    · intro k hk
      simp only [List.map_append, List.mem_append, List.map_cons]
      push_neg
      refine ⟨hfresh k (by simp [hk]), ?_⟩
      simp only [List.map_nil, List.mem_singleton]
      intro he
      exact hnd.1 (he ▸ hk)
    · exact hnd.2

/-- For sprites with pairwise-distinct file names, the positions dict
returned by `pack_images` lists exactly the placed rectangles' names and
positions, in placement order. -/
theorem pack_positions_of_nodup (images : List (String × Img)) (mw p : Nat)
    (h : (images.map Prod.fst).Nodup) :
    (pack_images images mw p).1 =
      (packRects mw p p p 0 images).map (fun r => (r.name, r.x, r.y)) := by
  have hspec := (packRun_spec mw p images
    { x := p, y := p, row_height := 0, positions := [], max_row_w := 0 }).1
  have hpos : (pack_images images mw p).1 =
      (packRects mw p p p 0 images).foldl
        (fun acc r => dictInsert r.name (r.x, r.y) acc) [] := hspec
  rw [hpos]
  have hmap : (packRects mw p p p 0 images).foldl
      (fun acc r => dictInsert r.name (r.x, r.y) acc) [] =
      ((packRects mw p p p 0 images).map (fun r => (r.name, r.x, r.y))).foldl
        (fun a kv => dictInsert kv.1 kv.2 a) [] := by
    rw [List.foldl_map]
  have hkeys : ((packRects mw p p p 0 images).map
      (fun r => (r.name, r.x, r.y))).map Prod.fst = images.map Prod.fst := by
    rw [List.map_map]
    exact packRects_names mw p images p p 0
  rw [hmap, foldl_dictInsert_eq_append _ [] (by simp) (hkeys ▸ h), List.nil_append]

/-- Width and height bounds of every placed rectangle against the packer's
returned sheet dimensions. -/
theorem pack_images_rect_bounds (images : List (String × Img)) (mw p : Nat) :
    ∀ r ∈ packRects mw p p p 0 images,
      r.x + r.w + p ≤ (pack_images images mw p).2.1 ∧
      r.y + r.h ≤ (pack_images images mw p).2.2 := by
  intro r hr
  have hspec := (packRun_spec mw p images
    { x := p, y := p, row_height := 0, positions := [], max_row_w := 0 }).2.2.2 r hr
  have hw : (pack_images images mw p).2.1 =
      max (packRun mw p { x := p, y := p, row_height := 0, positions := [], max_row_w := 0 }
        images).max_row_w (maxImgWidth images + 2 * p) := rfl
  have hh : (pack_images images mw p).2.2 =
      (packRun mw p { x := p, y := p, row_height := 0, positions := [], max_row_w := 0 }
        images).y +
      (packRun mw p { x := p, y := p, row_height := 0, positions := [], max_row_w := 0 }
        images).row_height + p := rfl
  constructor
  · rw [hw]
    exact le_trans hspec.1 (Nat.le_max_left _ _)
  · rw [hh]
    omega

/-- C1: for every input list of images and every padding, the placements
produced by the shelf packer are pairwise non-overlapping: no point of the
plane lies in two distinct sprites' placement rectangles, each expanded by
the padding (grown by `padding` to the right and bottom, i.e. the sprite
together with the padding gap the packer reserves for it); and, for
pairwise-distinct file names, the positions dict returned by `pack_images`
records exactly these rectangles' positions. -/
theorem shelf_packing_no_overlap (images : List (String × Img)) (mw p : Nat) :
    (packRects mw p p p 0 images).Pairwise
      (fun r1 r2 => ∀ q : Nat × Nat, ¬(inExpandedRect p r1 q ∧ inExpandedRect p r2 q)) ∧
    ((images.map Prod.fst).Nodup →
      (pack_images images mw p).1 =
        (packRects mw p p p 0 images).map (fun r => (r.name, r.x, r.y))) := by
  constructor
  · exact (packRects_pairwise mw p images p p 0).imp
      (fun h q => rectsSeparated.no_common_point h q)
  · exact pack_positions_of_nodup images mw p

/-- Witness for C1 at a concrete input with two sprites. -/
theorem shelf_packing_no_overlap_witness :
    (pack_images [("a.png", Img.mk 3 2), ("b.png", Img.mk 3 2)] 10 1).1 =
      [("a.png", 1, 1), ("b.png", 5, 1)] := by
  have h := (shelf_packing_no_overlap [("a.png", Img.mk 3 2), ("b.png", Img.mk 3 2)] 10 1).2
    (by decide)
  rw [h]
  decide

/-- C3 counterexample: on the spec's three-image scenario (64 by 64,
128 by 64, 64 by 128, max width 256, padding 2) the packer does NOT return
final sheet width 256: it returns the row extent 198. -/
theorem scenario_three_images_width_ne :
    (pack_images [("a.png", Img.mk 64 64), ("b.png", Img.mk 128 64), ("c.png", Img.mk 64 128)]
      256 2).2.1 ≠ 256 := by
  decide

/-- C3 amended: the packer places the three images at (2,2), (68,2) and
(2,68) as claimed, and returns final sheet width 198 (the maximal row
extent; the sheet is not padded out to the max width 256) and final sheet
height 198. -/
theorem scenario_three_images :
    pack_images [("a.png", Img.mk 64 64), ("b.png", Img.mk 128 64), ("c.png", Img.mk 64 128)]
      256 2 =
      ([("a.png", 2, 2), ("b.png", 68, 2), ("c.png", 2, 68)], 198, 198) := by
  decide

/-- C5: for every positive `n`, `next_power_of_two n` is the smallest power
of two that is at least `n` (so a power of two is returned unchanged), and
with `--pot` both final sheet dimensions are exactly powers of two and at
least the unrounded packer dimensions. -/
theorem next_power_of_two_correct :
    (∀ n : Nat, 0 < n →
      (∃ k, next_power_of_two n = 2 ^ k) ∧ n ≤ next_power_of_two n ∧
        ∀ m, n ≤ 2 ^ m → next_power_of_two n ≤ 2 ^ m) ∧
    (∀ k : Nat, next_power_of_two (2 ^ k) = 2 ^ k) ∧
    (∀ w h : Nat,
      (∃ kw kh, create_sheet_dims w h true = (2 ^ kw, 2 ^ kh)) ∧
      w ≤ (create_sheet_dims w h true).1 ∧ h ≤ (create_sheet_dims w h true).2) := by
  refine ⟨?_, next_power_of_two_pow, ?_⟩
  · intro n _
    obtain ⟨j, h1, h2, h3⟩ := next_power_of_two_spec n
    exact ⟨⟨j, h1⟩, h1 ▸ h2, fun m hm => h1 ▸ h3 m hm⟩
  · intro w h
    obtain ⟨jw, hw1, _⟩ := next_power_of_two_spec w
    obtain ⟨jh, hh1, _⟩ := next_power_of_two_spec h
    refine ⟨⟨jw, jh, by simp [create_sheet_dims, hw1, hh1]⟩, ?_, ?_⟩
    · simpa [create_sheet_dims] using le_next_power_of_two w
    · simpa [create_sheet_dims] using le_next_power_of_two h

/-- Witness for C5 at `n = 13` (rounded up to 16) and `n = 64` (a power of
two, unchanged). -/
theorem next_power_of_two_correct_witness :
    13 ≤ next_power_of_two 13 ∧ next_power_of_two 13 ≤ 2 ^ 4 ∧
      next_power_of_two (2 ^ 6) = 2 ^ 6 :=
  ⟨(next_power_of_two_correct.1 13 (by decide)).2.1,
    (next_power_of_two_correct.1 13 (by decide)).2.2 4 (by decide),
    next_power_of_two_correct.2.1 6⟩

/-- C6: every placed sprite fits in the final sheet: the sheet width is at
least each sprite's `x + w` and the sheet height at least each sprite's
`y + h`, both for the raw packer dimensions and after the optional
power-of-two rounding of `create_sheet`, which never shrinks a dimension. -/
theorem sheet_contains_all_sprites (images : List (String × Img)) (mw p : Nat) (pot : Bool) :
    (∀ r ∈ packRects mw p p p 0 images,
      r.x + r.w ≤ (pack_images images mw p).2.1 ∧
      r.y + r.h ≤ (pack_images images mw p).2.2 ∧
      r.x + r.w ≤
        (create_sheet_dims (pack_images images mw p).2.1 (pack_images images mw p).2.2 pot).1 ∧
      r.y + r.h ≤
        (create_sheet_dims (pack_images images mw p).2.1 (pack_images images mw p).2.2 pot).2) ∧
    (∀ w h : Nat, w ≤ (create_sheet_dims w h pot).1 ∧ h ≤ (create_sheet_dims w h pot).2) := by
  have hpot : ∀ w h : Nat, w ≤ (create_sheet_dims w h pot).1 ∧ h ≤ (create_sheet_dims w h pot).2 := by
    intro w h
    cases pot with
    | false => simp [create_sheet_dims]
    | true =>
      exact ⟨by simpa [create_sheet_dims] using le_next_power_of_two w,
        by simpa [create_sheet_dims] using le_next_power_of_two h⟩
  refine ⟨?_, hpot⟩
  intro r hr
  obtain ⟨hb1, hb2⟩ := pack_images_rect_bounds images mw p r hr
  have h1 : r.x + r.w ≤ (pack_images images mw p).2.1 := by omega
  obtain ⟨hc1, hc2⟩ := hpot (pack_images images mw p).2.1 (pack_images images mw p).2.2
  exact ⟨h1, hb2, le_trans h1 hc1, le_trans hb2 hc2⟩

/-- Witness for C6 at a concrete one-sprite input. -/
theorem sheet_contains_all_sprites_witness :
    1 + 3 ≤ (pack_images [("a.png", Img.mk 3 2)] 10 1).2.1 ∧
      1 + 2 ≤ (pack_images [("a.png", Img.mk 3 2)] 10 1).2.2 := by
  have h := (sheet_contains_all_sprites [("a.png", Img.mk 3 2)] 10 1 false).1
    { name := "a.png", x := 1, y := 1, w := 3, h := 2 } (by decide)
  exact ⟨h.1, h.2.1⟩

/-! ### The spec's description of the shelf algorithm -/

/-- Modelled from the spec's wording of the shelf algorithm (section 4.2),
for comparison with the source's `pack_images`: maintain a cursor `(x, y)`
and a current row height `rh`; for each image in order, if
`x + width + padding > max_width` advance to a new row (increment `y` by
the current row height plus padding, reset `x` to padding and the row
height to 0); record the current `(x, y)` as the image's placement; advance
`x` by `width + padding`; track the maximum `x` reached (the row extent
`e`).  Returns the placements in order, the row extent, and the final `y`
and current row height. -/
def pack_spec_loop (mw p : Nat) :
    Nat → Nat → Nat → Nat → List (String × Img) →
      List (String × Nat × Nat) × Nat × Nat × Nat
  | _, y, rh, e, [] => ([], e, y, rh)
  | x, y, rh, e, fi :: rest =>
    if x + fi.2.w + p > mw then
      let res := pack_spec_loop mw p (p + fi.2.w + p) (y + rh + p) fi.2.h
        (max e (p + fi.2.w + p)) rest
      ((fi.1, p, y + rh + p) :: res.1, res.2)
    else
      let res := pack_spec_loop mw p (x + fi.2.w + p) y (max rh fi.2.h)
        (max e (x + fi.2.w + p)) rest
      ((fi.1, x, y) :: res.1, res.2)

/-- Modelled from the spec's wording (section 4.2): run the loop from
cursor `(padding, padding)` and return the placements, the final width
`max(row extent, largest single image width + 2 * padding)` and the final
height `y + current row height + padding` after the last image. -/
def pack_images_spec (images : List (String × Img)) (mw p : Nat) :
    List (String × Nat × Nat) × Nat × Nat :=
  let res := pack_spec_loop mw p p p 0 0 images
  (res.1, max res.2.1 (maxImgWidth images + 2 * p), res.2.2.1 + res.2.2.2 + p)

/-- The spec-worded loop computes the same placements (the placed
rectangles' names and positions) and the same final row extent, `y` and row
height as the source's loop, from any starting state. -/
theorem pack_spec_loop_run (mw p : Nat) :
    ∀ (l : List (String × Img)) (x y rh e : Nat) (ps : List (String × Nat × Nat)),
      (pack_spec_loop mw p x y rh e l).1 =
        (packRects mw p x y rh l).map (fun r => (r.name, r.x, r.y)) ∧
      (packRun mw p { x := x, y := y, row_height := rh, positions := ps, max_row_w := e }
        l).max_row_w = (pack_spec_loop mw p x y rh e l).2.1 ∧
      (packRun mw p { x := x, y := y, row_height := rh, positions := ps, max_row_w := e }
        l).y = (pack_spec_loop mw p x y rh e l).2.2.1 ∧
      (packRun mw p { x := x, y := y, row_height := rh, positions := ps, max_row_w := e }
        l).row_height = (pack_spec_loop mw p x y rh e l).2.2.2 := by
  intro l
  induction l with
  | nil => intro x y rh e ps; simp [pack_spec_loop, packRects, packRun]
  | cons fi rest ih =>
    intro x y rh e ps
    by_cases hw : x + fi.2.w + p > mw
    · have hstep : packStep mw p
          { x := x, y := y, row_height := rh, positions := ps, max_row_w := e } fi =
          { x := p + fi.2.w + p, y := y + rh + p, row_height := fi.2.h
            positions := dictInsert fi.1 (p, y + rh + p) ps
            max_row_w := max e (p + fi.2.w + p) } := by
        simp [packStep, hw]
      have hrun : packRun mw p
          { x := x, y := y, row_height := rh, positions := ps, max_row_w := e } (fi :: rest) =
          packRun mw p
            { x := p + fi.2.w + p, y := y + rh + p, row_height := fi.2.h
              positions := dictInsert fi.1 (p, y + rh + p) ps
              max_row_w := max e (p + fi.2.w + p) } rest := by
        show packRun mw p (packStep mw p _ fi) rest = _
        rw [hstep]
      obtain ⟨ih1, ih2, ih3, ih4⟩ := ih (p + fi.2.w + p) (y + rh + p) fi.2.h
        (max e (p + fi.2.w + p)) (dictInsert fi.1 (p, y + rh + p) ps)
      rw [pack_spec_loop, if_pos hw, packRects, if_pos hw, hrun]
      exact ⟨by simpa using ih1, ih2, ih3, ih4⟩
    · have hstep : packStep mw p
          { x := x, y := y, row_height := rh, positions := ps, max_row_w := e } fi =
          { x := x + fi.2.w + p, y := y, row_height := max rh fi.2.h
            positions := dictInsert fi.1 (x, y) ps
            max_row_w := max e (x + fi.2.w + p) } := by
        simp [packStep, hw]
      have hrun : packRun mw p
          { x := x, y := y, row_height := rh, positions := ps, max_row_w := e } (fi :: rest) =
          packRun mw p
            { x := x + fi.2.w + p, y := y, row_height := max rh fi.2.h
              positions := dictInsert fi.1 (x, y) ps
              max_row_w := max e (x + fi.2.w + p) } rest := by
        show packRun mw p (packStep mw p _ fi) rest = _
        rw [hstep]
      obtain ⟨ih1, ih2, ih3, ih4⟩ := ih (x + fi.2.w + p) y (max rh fi.2.h)
        (max e (x + fi.2.w + p)) (dictInsert fi.1 (x, y) ps)
      rw [pack_spec_loop, if_neg hw, packRects, if_neg hw, hrun]
      exact ⟨by simpa using ih1, ih2, ih3, ih4⟩

/-- C4: the source's `pack_images` follows the algorithm the spec
describes: its final width and height always equal the spec algorithm's
`max(row extent, largest image width + 2 * padding)` and
`y + row height + padding`, and for pairwise-distinct file names its
positions dict records exactly the spec algorithm's placements. -/
theorem pack_images_follows_spec (images : List (String × Img)) (mw p : Nat) :
    (pack_images images mw p).2 = (pack_images_spec images mw p).2 ∧
    ((images.map Prod.fst).Nodup →
      pack_images images mw p = pack_images_spec images mw p) := by
  obtain ⟨h1, h2, h3, h4⟩ := pack_spec_loop_run mw p images p p 0 0 []
  have hdims : (pack_images images mw p).2 = (pack_images_spec images mw p).2 := by
    show (max (packRun mw p _ images).max_row_w (maxImgWidth images + 2 * p),
        (packRun mw p _ images).y + (packRun mw p _ images).row_height + p) = _
    rw [h2, h3, h4]
    rfl
  refine ⟨hdims, fun hnd => ?_⟩
  have hfst : (pack_images images mw p).1 = (pack_images_spec images mw p).1 := by
    show (pack_images images mw p).1 = (pack_spec_loop mw p p p 0 0 images).1
    rw [h1]
    exact pack_positions_of_nodup images mw p hnd
  exact Prod.ext hfst hdims

/-- Witness for C4 at a concrete two-sprite input that wraps. -/
theorem pack_images_follows_spec_witness :
    pack_images [("a.png", Img.mk 3 2), ("b.png", Img.mk 4 1)] 6 1 =
      pack_images_spec [("a.png", Img.mk 3 2), ("b.png", Img.mk 4 1)] 6 1 :=
  (pack_images_follows_spec [("a.png", Img.mk 3 2), ("b.png", Img.mk 4 1)] 6 1).2 (by decide)

/-- C7: when some image is wider than the requested maximum width, `main`
widens the effective max width to that image's width plus twice the
padding before packing; concretely, a single image of width 3000 (any
height) with requested width 512 and padding 2 gives effective max width
3004 and a final sheet width of 3004. -/
theorem oversize_image_widens_max_width :
    (∀ (images : List (String × Img)) (reqW p : Nat), reqW < maxImgWidth images →
      effective_max_width images reqW p = maxImgWidth images + 2 * p) ∧
    (∀ h : Nat,
      effective_max_width [("big.png", Img.mk 3000 h)] 512 2 = 3004 ∧
      (run_pipeline [("big.png", Img.mk 3000 h)] 512 2 false "spritesheet.png").map
        (fun r => r.2.1) = some 3004) := by
  constructor
  · intro images reqW p hlt
    exact Nat.max_eq_right (by omega)
  · intro h
    exact ⟨rfl, rfl⟩

/-- Witness for C7 at a concrete oversize image. -/
theorem oversize_image_widens_max_width_witness :
    effective_max_width [("x.png", Img.mk 100 1)] 50 2 =
      maxImgWidth [("x.png", Img.mk 100 1)] + 2 * 2 :=
  oversize_image_widens_max_width.1 [("x.png", Img.mk 100 1)] 50 2 (by decide)

/-- The `frames` dict built by `build_json` does not depend on the sheet
dimensions passed in: they only enter the `meta` block. -/
theorem build_json_frames_indep (images : List (String × Img))
    (positions : List (String × Nat × Nat)) (w1 h1 w2 h2 : Nat) (o : String) :
    (build_json images positions w1 h1 o).map Atlas.frames =
      (build_json images positions w2 h2 o).map Atlas.frames := by
  unfold build_json
  cases buildFrames positions images <;> rfl

/-- C10: enabling `--pot` changes only the meta size field (which always
records the canvas dimensions): the per-sprite `frames` records, and the
remaining meta fields, of the atlas JSON are identical with and without
`--pot`, because placements are computed before the rounding and never
adjusted. -/
theorem pot_changes_only_meta_size :
    (∀ (images : List (String × Img)) (positions : List (String × Nat × Nat))
        (w1 h1 w2 h2 : Nat) (o : String),
      (build_json images positions w1 h1 o).map Atlas.frames =
        (build_json images positions w2 h2 o).map Atlas.frames) ∧
    (∀ (images : List (String × Img)) (reqW p : Nat) (o : String),
      (run_pipeline images reqW p true o).map (fun r => r.1.frames) =
        (run_pipeline images reqW p false o).map (fun r => r.1.frames) ∧
      (run_pipeline images reqW p true o).map
          (fun r => (r.1.meta.app, r.1.meta.image, r.1.meta.scale)) =
        (run_pipeline images reqW p false o).map
          (fun r => (r.1.meta.app, r.1.meta.image, r.1.meta.scale))) ∧
    (∀ (images : List (String × Img)) (reqW p : Nat) (pot : Bool) (o : String),
      (run_pipeline images reqW p pot o).map (fun r => r.1.meta.size) =
        (run_pipeline images reqW p pot o).map (fun r => (r.2.1, r.2.2))) := by
  refine ⟨fun images positions w1 h1 w2 h2 o => build_json_frames_indep _ _ _ _ _ _ _, ?_, ?_⟩
  · intro images reqW p o
    simp only [run_pipeline, build_json]
    cases buildFrames
      (pack_images images (effective_max_width images reqW p) p).1 images <;>
      simp
  · intro images reqW p pot o
    simp only [run_pipeline, build_json]
    cases buildFrames
      (pack_images images (effective_max_width images reqW p) p).1 images <;>
      simp

/-! ### Every sprite in the outputs (C2) -/

/-- Every processed sprite's file name is a key of the positions dict of the
final state (no distinctness needed: the dict always holds the key). -/
theorem packRun_mem_keys (mw p : Nat) :
    ∀ (l : List (String × Img)) (s : PackState) (f : String),
      f ∈ l.map Prod.fst ∨ f ∈ s.positions.map Prod.fst →
      f ∈ (packRun mw p s l).positions.map Prod.fst := by
  intro l
  induction l with
  | nil =>
    intro s f hf
    rcases hf with h | h
    · simp at h
    · exact h
  | cons fi rest ih =>
    intro s f hf
    have hrun : packRun mw p s (fi :: rest) = packRun mw p (packStep mw p s fi) rest := rfl
    have hkeys : ∀ a, a ∈ (packStep mw p s fi).positions.map Prod.fst ↔
        a = fi.1 ∨ a ∈ s.positions.map Prod.fst := by
      intro a
      unfold packStep
      by_cases hw : s.x + fi.2.w + p > mw
      · rw [if_pos hw]
        exact mem_keys_dictInsert a fi.1 _ s.positions
      · rw [if_neg hw]
        exact mem_keys_dictInsert a fi.1 _ s.positions
    rw [hrun]
    rcases hf with h | h
    · simp only [List.map_cons, List.mem_cons] at h
      rcases h with h | h
      · exact ih _ f (Or.inr ((hkeys f).2 (Or.inl h)))
      · exact ih _ f (Or.inl h)
    · exact ih _ f (Or.inr ((hkeys f).2 (Or.inr h)))

/-- Looking any processed sprite's file name up in the positions dict
returned by `pack_images` succeeds. -/
theorem pack_images_lookup_isSome (images : List (String × Img)) (mw p : Nat) :
    ∀ fi ∈ images, (List.lookup fi.1 (pack_images images mw p).1).isSome := by
  intro fi hfi
  have hmem : fi.1 ∈ (pack_images images mw p).1.map Prod.fst := by
    have : (pack_images images mw p).1 =
        (packRun mw p { x := p, y := p, row_height := 0, positions := [], max_row_w := 0 }
          images).positions := rfl
    rw [this]
    exact packRun_mem_keys mw p images _ fi.1
      (Or.inl (List.mem_map_of_mem Prod.fst hfi))
  rw [List.lookup_isSome_iff]
  obtain ⟨q, hq, hq2⟩ := List.mem_map.1 hmem
  exact ⟨q, hq, by simp [hq2]⟩

/-- When every sprite's position can be looked up, the `frames` loop of
`build_json` completes, from any accumulator. -/
theorem buildFrames_loop_isSome (positions : List (String × Nat × Nat)) :
    ∀ (images : List (String × Img)) (acc : List (String × FrameRec)),
      (∀ fi ∈ images, (List.lookup fi.1 positions).isSome) →
      (images.foldlM
        (fun frames fi =>
          (List.lookup fi.1 positions).map
            (fun pos =>
              dictInsert (splitext_root fi.1) (mkFrame pos.1 pos.2 fi.2.w fi.2.h) frames))
        acc).isSome := by
  intro images
  induction images with
  | nil => intro acc _; simp
  | cons fi rest ih =>
    intro acc hlk
    cases hv : List.lookup fi.1 positions with
    | none =>
      have := hlk fi (by simp)
      rw [hv] at this
      simp at this
    | some pos =>
      rw [List.foldlM_cons, hv]
      exact ih _ (fun g hg => hlk g (by simp [hg]))

/-- When the sprites' stems (file names without extension) are pairwise
distinct, the `frames` loop appends one record per sprite in order, so its
keys are exactly the stems, after the accumulator's keys. -/
theorem buildFrames_loop_keys (positions : List (String × Nat × Nat)) :
    ∀ (images : List (String × Img)) (acc : List (String × FrameRec))
      (fr : List (String × FrameRec)),
      images.foldlM
        (fun frames fi =>
          (List.lookup fi.1 positions).map
            (fun pos =>
              dictInsert (splitext_root fi.1) (mkFrame pos.1 pos.2 fi.2.w fi.2.h) frames))
        acc = some fr →
      (images.map (fun fi => splitext_root fi.1)).Nodup →
      (∀ st ∈ images.map (fun fi => splitext_root fi.1), st ∉ acc.map Prod.fst) →
      fr.map Prod.fst = acc.map Prod.fst ++ images.map (fun fi => splitext_root fi.1) := by
  intro images
  induction images with
  | nil =>
    intro acc fr hfr _ _
    have hacc : acc = fr := Option.some.inj hfr
    simp [hacc]
  | cons fi rest ih =>
    intro acc fr hfr hnd hfresh
    simp only [List.map_cons, List.nodup_cons] at hnd
    cases hv : List.lookup fi.1 positions with
    | none =>
      rw [List.foldlM_cons, hv] at hfr
      exact Option.noConfusion hfr
    | some pos =>
      rw [List.foldlM_cons, hv] at hfr
      have hfr' :
          rest.foldlM
            (fun frames fi =>
              (List.lookup fi.1 positions).map
                (fun pos =>
                  dictInsert (splitext_root fi.1) (mkFrame pos.1 pos.2 fi.2.w fi.2.h) frames))
            (dictInsert (splitext_root fi.1) (mkFrame pos.1 pos.2 fi.2.w fi.2.h) acc) =
            some fr := hfr
      have hins : dictInsert (splitext_root fi.1) (mkFrame pos.1 pos.2 fi.2.w fi.2.h) acc =
          acc ++ [(splitext_root fi.1, mkFrame pos.1 pos.2 fi.2.w fi.2.h)] :=
        dictInsert_eq_append _ _ acc (hfresh _ (by simp))
      rw [hins] at hfr'
      have := ih _ fr hfr' hnd.2 ?_
      · rw [this]
        simp
      · intro st hst
        simp only [List.map_append, List.mem_append]
        push_neg
        refine ⟨hfresh st (by simp [hst]), ?_⟩
        simp only [List.map_cons, List.map_nil, List.mem_singleton]
        intro he
        exact hnd.1 (he ▸ hst)

/-- C2 counterexample: two decodable sprites whose file names share a stem
("a.jpg" and "a.png") are both collected and both placed, yet the JSON
frames mapping holds a single record: the later sprite's record overwrites
the earlier one under their common key "a". -/
theorem sprite_once_in_frames_counterexample :
    ([("a.jpg", Img.mk 1 1), ("a.png", Img.mk 2 2)] : List (String × Img)).length = 2 ∧
    (build_json [("a.jpg", Img.mk 1 1), ("a.png", Img.mk 2 2)]
        (pack_images [("a.jpg", Img.mk 1 1), ("a.png", Img.mk 2 2)] 100 2).1 100 100
        "spritesheet.png").map (fun a => a.frames.length) = some 1 := by
  exact ⟨rfl, rfl⟩

/-- C2 amended: for sprites with pairwise-distinct file names, every
collected sprite's name appears exactly once as a key of the positions dict
returned by `pack_images`; and when additionally the stems (file names
without extension) are pairwise distinct, `build_json` succeeds and its
frames mapping holds exactly one record per sprite, keyed by the stem (when
stems collide, colliding sprites share a single record, as the
counterexample shows). -/
theorem sprites_once_in_outputs (images : List (String × Img)) (mw p w h : Nat) (o : String) :
    ((images.map Prod.fst).Nodup →
      ∀ fi ∈ images, ((pack_images images mw p).1.map Prod.fst).count fi.1 = 1) ∧
    ((images.map (fun fi => splitext_root fi.1)).Nodup →
      ∃ a, build_json images (pack_images images mw p).1 w h o = some a ∧
        a.frames.map Prod.fst = images.map (fun fi => splitext_root fi.1) ∧
        ∀ fi ∈ images, (a.frames.map Prod.fst).count (splitext_root fi.1) = 1) := by
  constructor
  · intro hnd fi hfi
    have hpos := pack_positions_of_nodup images mw p hnd
    have hkeys : (pack_images images mw p).1.map Prod.fst = images.map Prod.fst := by
      rw [hpos, List.map_map]
      exact packRects_names mw p images p p 0
    rw [hkeys]
    exact List.count_eq_one_of_mem hnd (List.mem_map_of_mem Prod.fst hfi)
  · intro hst
    have hlk := pack_images_lookup_isSome images mw p
    have hsome : (buildFrames (pack_images images mw p).1 images).isSome :=
      buildFrames_loop_isSome (pack_images images mw p).1 images [] hlk
    obtain ⟨fr, hfr⟩ := Option.isSome_iff_exists.1 hsome
    have hkeys := buildFrames_loop_keys (pack_images images mw p).1 images [] fr hfr hst
      (by simp)
    simp only [List.map_nil, List.nil_append] at hkeys
    refine ⟨{ frames := fr
              meta := { app := "generate_spritesheet.py", image := o, size := (w, h)
                        scale := "1" } }, ?_, hkeys, ?_⟩
    · unfold build_json
      rw [hfr]
      rfl
    · intro fi hfi
      simp only
      rw [hkeys]
      exact List.count_eq_one_of_mem hst
        (List.mem_map_of_mem (fun fi => splitext_root fi.1) hfi)

/-- Witness for C2's amended statement at a concrete two-sprite input. -/
theorem sprites_once_in_outputs_witness :
    ((pack_images [("a.png", Img.mk 1 1), ("b.png", Img.mk 1 1)] 10 1).1.map
      Prod.fst).count "a.png" = 1 ∧
    ∃ a, build_json [("a.png", Img.mk 1 1), ("b.png", Img.mk 1 1)]
        (pack_images [("a.png", Img.mk 1 1), ("b.png", Img.mk 1 1)] 10 1).1 10 10
        "spritesheet.png" = some a ∧
      a.frames.map Prod.fst = ["a", "b"] := by
  constructor
  · exact (sprites_once_in_outputs [("a.png", Img.mk 1 1), ("b.png", Img.mk 1 1)]
      10 1 10 10 "spritesheet.png").1 (by decide) ("a.png", Img.mk 1 1) (by decide)
  · obtain ⟨a, ha1, ha2, _⟩ := (sprites_once_in_outputs
      [("a.png", Img.mk 1 1), ("b.png", Img.mk 1 1)] 10 1 10 10 "spritesheet.png").2
      (by decide)
    exact ⟨a, ha1, by rw [ha2]; rfl⟩

/-! ### Sorting of the directory listing (C8, C9) -/

/-- The string comparison is transitive (as a Bool relation). -/
theorem strLeB_trans : ∀ (a b c : String), strLeB a b = true → strLeB b c = true →
    strLeB a c = true := by
  intro a b c hab hbc
  simp only [strLeB, decide_eq_true_eq] at hab hbc ⊢
  exact le_trans hab hbc

/-- The string comparison is total (as a Bool relation). -/
theorem strLeB_total : ∀ (a b : String), (strLeB a b || strLeB b a) = true := by
  intro a b
  simp only [strLeB, Bool.or_eq_true, decide_eq_true_eq]
  exact le_total a b

/-- The sorted listing is sorted with respect to the string order. -/
theorem mergeSort_strLeB_sorted (l : List String) :
    List.Sorted (fun a b : String => a ≤ b) (l.mergeSort strLeB) :=
  (List.sorted_mergeSort strLeB_trans strLeB_total l).imp
    (fun hab => by simpa [strLeB] using hab)

/-- Sorting is a canonical form: two listings that are permutations of each
other sort to the same list. -/
theorem mergeSort_strLeB_eq_of_perm {l1 l2 : List String} (h : l1.Perm l2) :
    l1.mergeSort strLeB = l2.mergeSort strLeB :=
  List.eq_of_perm_of_sorted
    ((List.mergeSort_perm l1 strLeB).trans (h.trans (List.mergeSort_perm l2 strLeB).symm))
    (mergeSort_strLeB_sorted l1) (mergeSort_strLeB_sorted l2)

/-- Filtering commutes with sorting. -/
theorem filter_mergeSort_strLeB (q : String → Bool) (l : List String) :
    (l.mergeSort strLeB).filter q = (l.filter q).mergeSort strLeB :=
  List.eq_of_perm_of_sorted
    (((List.mergeSort_perm l strLeB).filter q).trans
      (List.mergeSort_perm (l.filter q) strLeB).symm)
    (List.Pairwise.sublist (List.filter_sublist _) (mergeSort_strLeB_sorted l))
    (mergeSort_strLeB_sorted (l.filter q))

/-- Entries that decode to nothing can be removed from a list without
changing its `filterMap`. -/
theorem filterMap_erase_none {g : String → Option (String × Img)} {f : String}
    (hg : g f = none) :
    ∀ l : List String, l.filterMap g = (l.filter (fun x => x ≠ f)).filterMap g := by
  intro l
  induction l with
  | nil => rfl
  | cons a rest ih =>
    by_cases ha : a = f
    · subst ha
      simp [List.filterMap_cons, hg, ih]
    · simp [List.filterMap_cons, List.filter_cons, ha, ih]

/-- The pipeline on collected images never fails: every collected sprite's
position is present in the packer's dict, so `build_json` succeeds. -/
theorem run_pipeline_isSome (images : List (String × Img)) (reqW p : Nat) (pot : Bool)
    (o : String) : (run_pipeline images reqW p pot o).isSome := by
  have hs : (buildFrames
      (pack_images images (effective_max_width images reqW p) p).1 images).isSome :=
    buildFrames_loop_isSome _ images []
      (pack_images_lookup_isSome images (effective_max_width images reqW p) p)
  obtain ⟨fr, hfr⟩ := Option.isSome_iff_exists.1 hs
  simp only [run_pipeline, build_json]
  rw [hfr]
  rfl

/-- C8: the program exits with code 1 exactly when the input directory does
not exist or no decodable images remain after filtering (on that path it
returns no outputs: `Except.error` carries neither a sheet nor a JSON
document); and a file that fails to decode is simply skipped: collecting
with it present equals collecting with it removed from the listing. -/
theorem exit_one_iff_no_input (dirExists : Bool) (listing : List String)
    (decode : String → Option Img) (reqW p : Nat) (pot : Bool) (o : String) :
    (main_run dirExists listing decode reqW p pot o = Except.error 1 ↔
      dirExists = false ∨ collect_images listing decode = []) ∧
    (∀ f, decode f = none →
      collect_images listing decode =
        collect_images (listing.filter (fun x => x ≠ f)) decode) := by
  constructor
  · cases dirExists with
    | false => simp [main_run]
    | true =>
      by_cases hc : collect_images listing decode = []
      · simp [main_run, hc]
      · obtain ⟨r, hr⟩ := Option.isSome_iff_exists.1
          (run_pipeline_isSome (collect_images listing decode) reqW p pot o)
        simp [main_run, hc, hr]
  · intro f hf
    have hg : (fun x => (decode x).map (fun img => (x, img))) f = none := by simp [hf]
    unfold collect_images
    rw [filterMap_erase_none hg, filter_mergeSort_strLeB, List.filter_comm]

/-- Witness for C8's skip behavior at a concrete undecodable file. -/
theorem exit_one_iff_no_input_witness :
    collect_images ["a.png", "bad.png"]
        (fun s => if s = "a.png" then some (Img.mk 1 1) else none) =
      collect_images (["a.png", "bad.png"].filter (fun x => x ≠ "bad.png"))
        (fun s => if s = "a.png" then some (Img.mk 1 1) else none) :=
  (exit_one_iff_no_input true ["a.png", "bad.png"]
      (fun s => if s = "a.png" then some (Img.mk 1 1) else none) 10 1 false
      "spritesheet.png").2 "bad.png" (by decide)

/-- C9: the pipeline is deterministic in the directory listing order: for
the same set of files (any two listings that are permutations of each
other) and the same file contents (the same decode function) and flags, the
collected sequence, and with it every placement, dimension and the whole
atlas JSON document, are identical, because the file names are sorted
before processing. -/
theorem deterministic_pipeline (l1 l2 : List String) (decode : String → Option Img)
    (dirExists : Bool) (reqW p : Nat) (pot : Bool) (o : String) (hperm : l1.Perm l2) :
    collect_images l1 decode = collect_images l2 decode ∧
    main_run dirExists l1 decode reqW p pot o = main_run dirExists l2 decode reqW p pot o := by
  have hcol : collect_images l1 decode = collect_images l2 decode := by
    unfold collect_images
    rw [mergeSort_strLeB_eq_of_perm (hperm.filter hasImageExt)]
  exact ⟨hcol, by simp only [main_run, hcol]⟩

/-- Witness for C9 at two concrete listings in swapped order. -/
theorem deterministic_pipeline_witness :
    collect_images ["b.png", "a.png"] (fun _ => some (Img.mk 1 1)) =
      collect_images ["a.png", "b.png"] (fun _ => some (Img.mk 1 1)) :=
  (deterministic_pipeline ["b.png", "a.png"] ["a.png", "b.png"]
      (fun _ => some (Img.mk 1 1)) true 10 1 false "spritesheet.png" (by decide)).1
